import Mathlib

/-!
Verification of the response-to-archive packaging step of the FigmaToReact
repository (`create_zip_file` in `src/FigmatoReact.py`).

The Python code is shallowly embedded over `List Char`:
* `splitOnNl` models `str.split('\n')`;
* `pyStrip` models Python `str.strip()` (whitespace trimmed at both ends);
* `parseFileBlocks` models the marker-line scanning loop (lines 64-79),
  with `dictInsert` giving Python-dict semantics (update in place, keep
  the key's original position; new keys appended);
* `removeAllFuel` / `pyRemove` model `str.replace(old, '')` (leftmost,
  non-overlapping, single left-to-right scan);
* `buildArchive` models the zip-writing part (lines 81-112): the archive
  is the ordered list of `writestr` calls; `zipRead` models reading a
  member back (`zipfile` resolves a name to its **last** member).
-/

set_option maxRecDepth 8000

abbrev LC := List Char

/-- Python `str.strip()` whitespace set (ASCII part). -/
def pyWS (c : Char) : Bool :=
  c == ' ' || c == '\t' || c == '\n' || c == '\r' || c == '\x0b' || c == '\x0c'

/-- Python `s.strip()`: drop whitespace at both ends. -/
def pyStrip (l : LC) : LC := List.rdropWhile pyWS (List.dropWhile pyWS l)

/-- Python `s.split('\n')`: split at every newline, keeping empty pieces. -/
def splitOnNl : LC → List LC
  | [] => [[]]
  | c :: t =>
    if c = '\n' then [] :: splitOnNl t
    else
      match splitOnNl t with
      | [] => [[c]]
      | h :: r => (c :: h) :: r

/-- Python `'\n'.join(lines)`. -/
def joinNl : List LC → LC
  | [] => []
  | [l] => l
  | l :: ls => l ++ '\n' :: joinNl ls

/-- The marker `"# FILE: "` (line 70). -/
def markerL : LC := "# FILE: ".data

/-- Python truthiness of `current_file` (`None` and `""` are falsy). -/
def pyTruthy : Option LC → Bool
  | none => false
  | some p => !(List.isEmpty p)

/-- Python `files[k] = v` on an insertion-ordered dict: an existing key keeps
its position and gets the new value; a new key is appended at the end. -/
def dictInsert : List (LC × LC) → LC → LC → List (LC × LC)
  | [], k, v => [(k, v)]
  | (k', v') :: rest, k, v =>
    if k' = k then (k', v) :: rest else (k', v') :: dictInsert rest k v

/-- `files[current_file] = '\n'.join(current_content).strip()`, guarded by
`if current_file:` (lines 71-72 and 78-79). -/
def flushS (cf : Option LC) (cc : List LC) (fs : List (LC × LC)) : List (LC × LC) :=
  match cf with
  | none => fs
  | some p => if p = [] then fs else dictInsert fs p (pyStrip (joinNl cc))

/-- One iteration of the `for line in code_response.split('\n')` loop
(lines 69-76); state is `(current_file, current_content, files)`. -/
def parseLine (st : Option LC × List LC × List (LC × LC)) (line : LC) :
    Option LC × List LC × List (LC × LC) :=
  if List.isPrefixOf markerL line then
    (some (pyStrip (List.drop 8 line)), [], flushS st.1 st.2.1 st.2.2)
  else if pyTruthy st.1 then
    (st.1, st.2.1 ++ [line], st.2.2)
  else st

/-- The parsing half of `create_zip_file` (lines 64-79): scan the lines,
then flush the file still open at end of input. -/
def parseFileBlocks (text : LC) : List (LC × LC) :=
  let st := List.foldl parseLine (none, [], []) (splitOnNl text)
  flushS st.1 st.2.1 st.2.2

/-- Fuel-indexed engine for `s.replace(old, '')`: scan left to right, and
whenever `old` is a prefix of the remaining text remove it and continue
after it (Python's single-pass, non-overlapping replace). -/
def removeAllFuel (old : LC) : Nat → LC → LC
  | _, [] => []
  | 0, l => l
  | fuel + 1, c :: t =>
    if List.isPrefixOf old (c :: t) then
      removeAllFuel old fuel (List.drop (List.length old - 1) t)
    else c :: removeAllFuel old fuel t

/-- Python `s.replace(old, '')` for nonempty `old`. -/
def pyRemove (s old : LC) : LC := removeAllFuel old (List.length s) s

/-- The backtick character. -/
def btick : Char := Char.ofNat 96

/-- The fence marker `"```"`. -/
def fenceL : LC := "```".data

/-- The tagged fence marker `"```jsx"`. -/
def jsxFenceL : LC := "```jsx".data

/-- Line 111: `content.replace('```jsx', '').replace('```', '').strip()`. -/
def stripFences (c : LC) : LC := pyStrip (pyRemove (pyRemove c jsxFenceL) fenceL)

/-- The dependency-manifest path (line 98). -/
def pkgPath : LC := "package.json".data

/-- The styling-configuration path (lines 101, 107). -/
def twPath : LC := "tailwind.config.js".data

/-- `str(package_json)` for the dict literal of lines 84-97: Python's
`str` of a dict, with single-quoted keys and values, insertion order kept. -/
def pkgManifest : LC :=
  "\x7b'name': 'figma-to-react', 'version': '1.0.0', 'scripts': \x7b'start': 'react-scripts start', 'build': 'react-scripts build'\x7d, 'dependencies': \x7b'react': '^18.2.0', 'react-dom': '^18.2.0', 'react-scripts': '5.0.1', 'tailwindcss': '^3.3.0'\x7d\x7d".data

/-- The default Tailwind config constant of lines 102-106 (a triple-quoted
Python string, indentation included). -/
def twDefault : LC :=
  "module.exports = \x7b\n                content: [\"./src/**/*.\x7bjs,jsx\x7d\"],\n                theme: \x7b extend: \x7b\x7d \x7d,\n                plugins: []\n            \x7d".data

/-- Python `k in files` on the parsed dict. -/
def keyMemB (fs : List (LC × LC)) (k : LC) : Bool :=
  List.any fs (fun e => e.1 == k)

/-- Lines 100-107: the Tailwind config member is written only when the
FileSet has no entry at that path. -/
def twInject (fs : List (LC × LC)) : List (LC × LC) :=
  if keyMemB fs twPath then [] else [(twPath, twDefault)]

/-- Lines 81-112: the archive as the ordered list of `writestr` calls:
the manifest first, then the conditional Tailwind config, then every
FileSet entry (fence-stripped) in dict order.  `writestr` never
overwrites: a repeated path yields a repeated member. -/
def buildArchive (fs : List (LC × LC)) : List (LC × LC) :=
  (pkgPath, pkgManifest) :: twInject fs ++ List.map (fun e => (e.1, stripFences e.2)) fs

/-- The whole of `create_zip_file` (lines 64-115). -/
def create_zip_file (text : LC) : List (LC × LC) :=
  buildArchive (parseFileBlocks text)

/-- How many members of the archive carry the given path. -/
def memberCount (ms : List (LC × LC)) (p : LC) : Nat :=
  List.length (List.filter (fun m => m.1 == p) ms)

/-- First association of a key in an ordered list of pairs. -/
def lookupKey : List (LC × LC) → LC → Option LC
  | [], _ => none
  | (k', v) :: rest, k => if k' = k then some v else lookupKey rest k

/-- Reading a member back from the archive: Python's `zipfile` maps a name
to the **last** member written under it. -/
def zipRead (ms : List (LC × LC)) (p : LC) : Option LC :=
  lookupKey (List.reverse ms) p

/-- A blank line (empty or whitespace only), for stating the spec's
"trimmed of leading and trailing blank lines" reading. -/
def isBlankLine (l : LC) : Bool := List.isEmpty (pyStrip l)

/-- Stated from the spec's words, for comparison with the code: the block's
lines joined by newline after dropping leading and trailing **blank lines**
only (interior and in-line whitespace kept verbatim). -/
def specBlockContent (ls : List LC) : LC :=
  joinNl (List.rdropWhile isBlankLine (List.dropWhile isBlankLine ls))

/-- The paths of a FileSet, in stored order. -/
def keysOf (fs : List (LC × LC)) : List LC := List.map Prod.fst fs

/-- Replay a list of flush events into a Python dict. -/
def applyEvents (d : List (LC × LC)) (evs : List (LC × LC)) : List (LC × LC) :=
  List.foldl (fun d e => dictInsert d e.1 e.2) d evs

/-- The flush event (if any) a marker line or end-of-input produces from the
open file `cf` with accumulated lines `cc`. -/
def flushEv (cf : Option LC) (cc : List LC) : List (LC × LC) :=
  match cf with
  | none => []
  | some p => if p = [] then [] else [(p, pyStrip (joinNl cc))]

/-- Instrumented copy of `parseLine` that records the flush events in order
instead of folding them into the dict. -/
def parseLineEv (st : Option LC × List LC × List (LC × LC)) (line : LC) :
    Option LC × List LC × List (LC × LC) :=
  if List.isPrefixOf markerL line then
    (some (pyStrip (List.drop 8 line)), [], st.2.2 ++ flushEv st.1 st.2.1)
  else if pyTruthy st.1 then
    (st.1, st.2.1 ++ [line], st.2.2)
  else st

/-- The sequence of file finalizations (flushes), in the order the parsing
loop performs them. -/
def parseEvents (text : LC) : List (LC × LC) :=
  let st := List.foldl parseLineEv (none, [], []) (splitOnNl text)
  st.2.2 ++ flushEv st.1 st.2.1

/-- Keep the first occurrence of every element, in order. -/
def dedupFirst : List LC → List LC
  | [] => []
  | x :: xs => x :: dedupFirst (List.filter (fun y => !(y == x)) xs)
termination_by l => List.length l
decreasing_by
simp only [List.length_cons]
exact Nat.lt_succ_of_le (List.length_filter_le _ _)

theorem splitOnNl_ne_nil (l : LC) : splitOnNl l ≠ [] := by
  cases l with
  | nil => simp [splitOnNl]
  | cons c t =>
    simp only [splitOnNl]
    split
    · simp
    · split <;> simp

theorem splitOnNl_no_nl (l : LC) (h : '\n' ∉ l) : splitOnNl l = [l] := by
  induction l with
  | nil => rfl
  | cons c t ih =>
    have hc : ¬ c = '\n' := fun hc => h (hc ▸ List.mem_cons_self c t)
    have ht : '\n' ∉ t := fun hm => h (List.mem_cons_of_mem c hm)
    simp only [splitOnNl, if_neg hc, ih ht]

theorem splitOnNl_append (l rest : LC) (h : '\n' ∉ l) :
    splitOnNl (l ++ '\n' :: rest) = l :: splitOnNl rest := by
  induction l with
  | nil => simp [splitOnNl]
  | cons c t ih =>
    have hc : ¬ c = '\n' := fun hc => h (hc ▸ List.mem_cons_self c t)
    have ht : '\n' ∉ t := fun hm => h (List.mem_cons_of_mem c hm)
    simp only [List.cons_append, splitOnNl, List.append_eq, if_neg hc, ih ht]

theorem splitOnNl_joinNl (ls : List LC) (h1 : ls ≠ [])
    (h2 : ∀ l ∈ ls, '\n' ∉ l) : splitOnNl (joinNl ls) = ls := by
  induction ls with
  | nil => exact absurd rfl h1
  | cons l ls ih =>
    cases ls with
    | nil => exact splitOnNl_no_nl l (h2 l (List.mem_cons_self l []))
    | cons l2 ls2 =>
      have : joinNl (l :: l2 :: ls2) = l ++ '\n' :: joinNl (l2 :: ls2) := rfl
      rw [this, splitOnNl_append l _ (h2 l (List.mem_cons_self _ _)),
        ih (by simp) (fun x hx => h2 x (List.mem_cons_of_mem l hx))]

theorem markerL_length : List.length markerL = 8 := by decide

theorem parseLine_marker (cf : Option LC) (cc : List LC) (fs : List (LC × LC)) (r : LC) :
    parseLine (cf, cc, fs) (markerL ++ r) = (some (pyStrip r), [], flushS cf cc fs) := by
  have hm : List.isPrefixOf markerL (markerL ++ r) = true := by
    rw [ List.isPrefixOf_iff_prefix]
    exact List.prefix_append markerL r
  simp only [parseLine, hm, if_pos, List.drop_left' markerL_length]

theorem foldl_parseLine_falsy (ls : List LC) (cf : Option LC) (cc : List LC)
    (fs : List (LC × LC)) (hf : pyTruthy cf = false)
    (h : ∀ l ∈ ls, List.isPrefixOf markerL l = false) :
    List.foldl parseLine (cf, cc, fs) ls = (cf, cc, fs) := by
  induction ls with
  | nil => rfl
  | cons l ls ih =>
    have h1 : parseLine (cf, cc, fs) l = (cf, cc, fs) := by
      simp [parseLine, h l (List.mem_cons_self l ls), hf]
    rw [List.foldl_cons, h1, ih (fun x hx => h x (List.mem_cons_of_mem l hx))]

theorem foldl_parseLine_truthy (ls : List LC) (p : LC) (hp : p ≠ [])
    (cc : List LC) (fs : List (LC × LC))
    (h : ∀ l ∈ ls, List.isPrefixOf markerL l = false) :
    List.foldl parseLine (some p, cc, fs) ls = (some p, cc ++ ls, fs) := by
  induction ls generalizing cc with
  | nil => simp
  | cons l ls ih =>
    have htr : pyTruthy (some p) = true := by
      simp [pyTruthy, List.isEmpty_iff, hp]
    have h1 : parseLine (some p, cc, fs) l = (some p, cc ++ [l], fs) := by
      simp [parseLine, h l (List.mem_cons_self l ls), htr]
    rw [List.foldl_cons, h1,
      ih (cc ++ [l]) (fun x hx => h x (List.mem_cons_of_mem l hx))]
    simp

/-- C2: the single input text `"# FILE: src/App.js\n```jsx\nexport default
function App(){return null;}\n```\n"` parses to a FileSet with exactly one
entry at `"src/App.js"`; the archive stores
`"export default function App(){return null;}"` for it, and the archive has
exactly three members: the manifest, the default Tailwind config, and
`"src/App.js"`. -/
theorem claim2_end_to_end :
    parseFileBlocks "# FILE: src/App.js\n```jsx\nexport default function App()\x7breturn null;\x7d\n```\n".data
      = [("src/App.js".data,
          "```jsx\nexport default function App()\x7breturn null;\x7d\n```".data)] ∧
    create_zip_file "# FILE: src/App.js\n```jsx\nexport default function App()\x7breturn null;\x7d\n```\n".data
      = [(pkgPath, pkgManifest), (twPath, twDefault),
         ("src/App.js".data, "export default function App()\x7breturn null;\x7d".data)] := by
  decide

/-- C3: any input in which no line starts with `"# FILE: "` parses to the
empty FileSet (the parser is total, so no error is possible), and the
archive built from it has exactly the two scaffolding members. -/
theorem claim3_no_marker_scaffolding_only (text : LC)
    (h : ∀ l ∈ splitOnNl text, List.isPrefixOf markerL l = false) :
    parseFileBlocks text = [] ∧
      buildArchive (parseFileBlocks text) = [(pkgPath, pkgManifest), (twPath, twDefault)] := by
  have key : List.foldl parseLine (none, [], []) (splitOnNl text) = (none, [], []) :=
    foldl_parseLine_falsy (splitOnNl text) none [] [] rfl h
  have hp : parseFileBlocks text = [] := by
    simp [parseFileBlocks, key, flushS]
  refine ⟨hp, ?_⟩
  rw [hp]
  decide

theorem claim3_witness :
    parseFileBlocks "hello\nworld".data = [] :=
  (claim3_no_marker_scaffolding_only "hello\nworld".data (by decide)).1

theorem parseFileBlocks_eq (text : LC) :
    parseFileBlocks text =
      flushS (List.foldl parseLine (none, [], []) (splitOnNl text)).1
        (List.foldl parseLine (none, [], []) (splitOnNl text)).2.1
        (List.foldl parseLine (none, [], []) (splitOnNl text)).2.2 := rfl

theorem nl_not_mem_markerL : '\n' ∉ markerL := by decide

/-- C4: an input made of two marker blocks whose marker lines carry the same
trimmed nonempty path but different content parses to a FileSet with exactly
one entry at that path, holding the later block's content. -/
theorem claim4_last_write_wins (r1 r2 : LC) (ls1 ls2 : List LC)
    (hp : pyStrip r1 = pyStrip r2) (hne : pyStrip r2 ≠ [])
    (hnr1 : '\n' ∉ r1) (hnr2 : '\n' ∉ r2)
    (h1 : ∀ l ∈ ls1, List.isPrefixOf markerL l = false ∧ '\n' ∉ l)
    (h2 : ∀ l ∈ ls2, List.isPrefixOf markerL l = false ∧ '\n' ∉ l)
    (hdiff : pyStrip (joinNl ls1) ≠ pyStrip (joinNl ls2)) :
    parseFileBlocks (joinNl ((markerL ++ r1) :: ls1 ++ (markerL ++ r2) :: ls2)) =
      [(pyStrip r2, pyStrip (joinNl ls2))] := by
  have hne1 : pyStrip r1 ≠ [] := by rw [hp]; exact hne
  have hsplit : splitOnNl (joinNl ((markerL ++ r1) :: ls1 ++ (markerL ++ r2) :: ls2)) =
      (markerL ++ r1) :: ls1 ++ (markerL ++ r2) :: ls2 := by
    refine splitOnNl_joinNl _ (by simp) ?_
    intro l hl
    rcases List.mem_cons.mp hl with h | hl
    · subst h
      intro hmem
      rcases List.mem_append.mp hmem with hm | hm
      · exact nl_not_mem_markerL hm
      · exact hnr1 hm
    · rcases List.mem_append.mp hl with hm | hm
      · exact (h1 l hm).2
      · rcases List.mem_cons.mp hm with h | hm
        · subst h
          intro hmem
          rcases List.mem_append.mp hmem with hm | hm
          · exact nl_not_mem_markerL hm
          · exact hnr2 hm
        · exact (h2 l hm).2
  have e1 : List.foldl parseLine (none, [], []) ((markerL ++ r1) :: ls1) =
      (some (pyStrip r1), ls1, []) := by
    rw [List.foldl_cons, parseLine_marker]
    exact foldl_parseLine_truthy ls1 (pyStrip r1) hne1 [] _
      (fun l hl => (h1 l hl).1)
  have hfl : flushS (some (pyStrip r1)) ls1 [] =
      [(pyStrip r1, pyStrip (joinNl ls1))] := by
    simp [flushS, if_neg hne1, dictInsert]
  have e2 : List.foldl parseLine (none, [], [])
      (((markerL ++ r1) :: ls1) ++ ((markerL ++ r2) :: ls2)) =
      (some (pyStrip r2), ls2, [(pyStrip r1, pyStrip (joinNl ls1))]) := by
    rw [List.foldl_append, e1, List.foldl_cons, parseLine_marker, hfl]
    exact foldl_parseLine_truthy ls2 (pyStrip r2) hne [] _
      (fun l hl => (h2 l hl).1)
  rw [parseFileBlocks_eq, hsplit, e2]
  show flushS (some (pyStrip r2)) ls2 [(pyStrip r1, pyStrip (joinNl ls1))] = _
  simp only [flushS, if_neg hne, dictInsert, if_pos hp, hp]
  simp

theorem claim4_witness :
    parseFileBlocks (joinNl ((markerL ++ " p".data) :: [['a']] ++ (markerL ++ "p ".data) :: [['b']])) =
      [(['p'], ['b'])] :=
  (claim4_last_write_wins " p".data "p ".data [['a']] [['b']]
    (by decide) (by decide) (by decide) (by decide)
    (by decide) (by decide) (by decide)).trans (by decide)

/-- C7 counterexample: for the input `"# FILE: a\n x"` the code stores
`"x"` (Python `strip()` removes the leading space of the content line),
while the claim's "trimmed only of leading and trailing blank lines"
prescribes `" x"`; the two differ. -/
theorem claim7_counterexample :
    parseFileBlocks "# FILE: a\n x".data = [("a".data, "x".data)] ∧
    specBlockContent [" x".data] = " x".data ∧
    ("x".data : LC) ≠ " x".data := by
  decide

/-- C7 amended: the content stored for a marker block is the block's
subsequent lines joined by newline and stripped of leading and trailing
whitespace (Python `strip()`) — this removes leading/trailing blank lines
and also whitespace at the very start and end of the first and last content
lines; interior lines are kept verbatim.  The claim's concrete instance
(`"line1"`, `"line2"`) is unaffected. -/
theorem claim7_amended_block_content (r : LC) (ls : List LC)
    (hne : pyStrip r ≠ []) (hnr : '\n' ∉ r)
    (h : ∀ l ∈ ls, List.isPrefixOf markerL l = false ∧ '\n' ∉ l) :
    parseFileBlocks (joinNl ((markerL ++ r) :: ls)) =
      [(pyStrip r, pyStrip (joinNl ls))] := by
  have hsplit : splitOnNl (joinNl ((markerL ++ r) :: ls)) = (markerL ++ r) :: ls := by
    refine splitOnNl_joinNl _ (by simp) ?_
    intro l hl
    rcases List.mem_cons.mp hl with hh | hl
    · subst hh
      intro hmem
      rcases List.mem_append.mp hmem with hm | hm
      · exact nl_not_mem_markerL hm
      · exact hnr hm
    · exact (h l hl).2
  have e1 : List.foldl parseLine (none, [], []) ((markerL ++ r) :: ls) =
      (some (pyStrip r), ls, []) := by
    rw [List.foldl_cons, parseLine_marker]
    exact foldl_parseLine_truthy ls (pyStrip r) hne [] _ (fun l hl => (h l hl).1)
  rw [parseFileBlocks_eq, hsplit, e1]
  show flushS (some (pyStrip r)) ls [] = _
  simp [flushS, if_neg hne, dictInsert]

theorem claim7_witness :
    parseFileBlocks (joinNl ((markerL ++ "src/App.js".data) :: ["line1".data, "line2".data])) =
      [("src/App.js".data, "line1\nline2".data)] :=
  (claim7_amended_block_content "src/App.js".data ["line1".data, "line2".data]
    (by decide) (by decide) (by decide)).trans (by decide)

/-- C10: a marker line whose path trims to the empty string flushes the
previously open file (if any), opens no new entry (`current_file` becomes
the falsy empty string), and every following non-marker line is discarded;
the end-of-input flush adds nothing for it either. -/
theorem claim10_empty_marker_discards (r : LC) (hr : pyStrip r = [])
    (ls : List LC) (h : ∀ l ∈ ls, List.isPrefixOf markerL l = false)
    (cf : Option LC) (cc : List LC) (fs : List (LC × LC)) :
    List.foldl parseLine (cf, cc, fs) ((markerL ++ r) :: ls) =
      (some [], [], flushS cf cc fs) ∧
    flushS (some []) [] (flushS cf cc fs) = flushS cf cc fs := by
  constructor
  · rw [List.foldl_cons, parseLine_marker, hr]
    exact foldl_parseLine_falsy ls (some []) [] (flushS cf cc fs) rfl h
  · rfl

theorem claim10_witness :
    List.foldl parseLine (some ['p'], [['a']], []) ((markerL ++ [' ']) :: [['x']]) =
      (some [], [], [(['p'], ['a'])]) :=
  ((claim10_empty_marker_discards [' '] (by decide) [['x']] (by decide)
    (some ['p']) [['a']] []).1).trans (by decide)

theorem removeAllFuel_nil (old : LC) (f : Nat) : removeAllFuel old f [] = [] := by
  cases f <;> rfl

theorem removeAllFuel_zero (old l : LC) : removeAllFuel old 0 l = l := by
  cases l <;> rfl

theorem removeAllFuel_succ (old : LC) (f : Nat) (c : Char) (t : LC) :
    removeAllFuel old (f + 1) (c :: t) =
      if List.isPrefixOf old (c :: t) then
        removeAllFuel old f (List.drop (List.length old - 1) t)
      else c :: removeAllFuel old f t := rfl

theorem backtick_prefix_of_removeAllFuel (f : Nat) (s : LC)
    (h : [btick] <+: removeAllFuel fenceL f s) : [btick] <+: s := by
  cases s with
  | nil =>
    rw [removeAllFuel_nil] at h
    exact absurd (List.prefix_nil.mp h) (by decide)
  | cons c t =>
    cases f with
    | zero => rw [removeAllFuel_zero] at h; exact h
    | succ f =>
      rw [removeAllFuel_succ] at h
      by_cases hc : List.isPrefixOf fenceL (c :: t)
      · have hpre : fenceL <+: c :: t := List.isPrefixOf_iff_prefix.mp hc
        have := (List.cons_prefix_cons.mp hpre).1
        exact List.cons_prefix_cons.mpr ⟨this, List.nil_prefix⟩
      · rw [if_neg hc] at h
        exact List.cons_prefix_cons.mpr
          ⟨(List.cons_prefix_cons.mp h).1, List.nil_prefix⟩

theorem double_backtick_prefix_of_removeAllFuel (f : Nat) (s : LC)
    (h : [btick, btick] <+: removeAllFuel fenceL f s) : [btick, btick] <+: s := by
  cases s with
  | nil =>
    rw [removeAllFuel_nil] at h
    exact absurd (List.prefix_nil.mp h) (by decide)
  | cons c t =>
    cases f with
    | zero => rw [removeAllFuel_zero] at h; exact h
    | succ f =>
      rw [removeAllFuel_succ] at h
      by_cases hc : List.isPrefixOf fenceL (c :: t)
      · have hpre : fenceL <+: c :: t := List.isPrefixOf_iff_prefix.mp hc
        rcases List.cons_prefix_cons.mp hpre with ⟨hc1, hc2⟩
        refine List.cons_prefix_cons.mpr ⟨hc1, ?_⟩
        exact List.IsPrefix.trans (by decide) hc2
      · rw [if_neg hc] at h
        rcases List.cons_prefix_cons.mp h with ⟨hc1, hc2⟩
        exact List.cons_prefix_cons.mpr
          ⟨hc1, backtick_prefix_of_removeAllFuel f t hc2⟩

theorem no_fence_in_removeAllFuel (f : Nat) :
    ∀ s : LC, List.length s ≤ f → ¬ fenceL <:+: removeAllFuel fenceL f s := by
  induction f with
  | zero =>
    intro s hs
    have : s = [] := List.length_eq_zero.mp (Nat.le_zero.mp hs)
    subst this
    rw [removeAllFuel_nil]
    simp [fenceL]
  | succ f ih =>
    intro s hs
    cases s with
    | nil =>
      rw [removeAllFuel_nil]
      simp [fenceL]
    | cons c t =>
      rw [removeAllFuel_succ]
      have hlt : List.length t ≤ f := by
        simpa using Nat.le_of_succ_le_succ hs
      by_cases hc : List.isPrefixOf fenceL (c :: t)
      · rw [if_pos hc]
        refine ih _ ?_
        calc List.length (List.drop (List.length fenceL - 1) t)
            = List.length t - (List.length fenceL - 1) := List.length_drop _ _
          _ ≤ List.length t := Nat.sub_le _ _
          _ ≤ f := hlt
      · rw [if_neg hc]
        intro hinf
        rcases List.infix_cons_iff.mp hinf with hpre | htail
        · rcases List.cons_prefix_cons.mp hpre with ⟨hc1, hc2⟩
          apply hc
          rw [ List.isPrefixOf_iff_prefix]
          exact List.cons_prefix_cons.mpr
            ⟨hc1, double_backtick_prefix_of_removeAllFuel f t hc2⟩
        · exact ih t hlt htail

theorem pyStrip_infix_self (l : LC) : pyStrip l <:+: l := by
  have h1 : List.rdropWhile pyWS (List.dropWhile pyWS l) <+: List.dropWhile pyWS l :=
    List.rdropWhile_prefix pyWS (List.dropWhile pyWS l)
  have h2 : List.dropWhile pyWS l <:+ l := List.dropWhile_suffix pyWS
  exact List.IsInfix.trans (List.IsPrefix.isInfix h1) (List.IsSuffix.isInfix h2)

theorem no_fence_in_stripFences (c : LC) : ¬ fenceL <:+: stripFences c := by
  intro h
  have h2 : fenceL <:+: pyRemove (pyRemove c jsxFenceL) fenceL :=
    List.IsInfix.trans h (pyStrip_infix_self _)
  exact no_fence_in_removeAllFuel _ _ (Nat.le_refl _) h2

theorem no_jsx_fence_in_stripFences (c : LC) : ¬ jsxFenceL <:+: stripFences c := by
  intro h
  have hf : fenceL <:+: jsxFenceL := List.IsPrefix.isInfix (by decide)
  exact no_fence_in_stripFences c (List.IsInfix.trans hf h)

/-- C5: every FileSet entry is written into the archive with all fence
markers removed: the written content (the entry's fence-stripped content,
present as an archive member) contains no occurrence of `"```"` and hence
none of `"```jsx"`, at any position. -/
theorem claim5_fence_markers_removed (fs : List (LC × LC)) (p c : LC)
    (hm : (p, c) ∈ fs) :
    (p, stripFences c) ∈ buildArchive fs ∧
    ¬ fenceL <:+: stripFences c ∧ ¬ jsxFenceL <:+: stripFences c := by
  refine ⟨?_, no_fence_in_stripFences c, no_jsx_fence_in_stripFences c⟩
  have hmem : (p, stripFences c) ∈ List.map (fun e => (e.1, stripFences e.2)) fs :=
    List.mem_map.mpr ⟨(p, c), hm, rfl⟩
  unfold buildArchive
  exact List.mem_append_right _ hmem

theorem claim5_witness :
    ((['a'] : LC), stripFences "a```b```jsxc".data) ∈
      buildArchive [((['a'] : LC), "a```b```jsxc".data)] ∧
    ¬ fenceL <:+: stripFences "a```b```jsxc".data := by
  have h := claim5_fence_markers_removed [((['a'] : LC), "a```b```jsxc".data)]
    ['a'] "a```b```jsxc".data (by decide)
  exact ⟨h.1, h.2.1⟩

theorem keyMemB_iff (fs : List (LC × LC)) (k : LC) :
    keyMemB fs k = true ↔ k ∈ keysOf fs := by
  simp [keyMemB, keysOf, List.any_eq_true, List.mem_map, beq_iff_eq]

theorem memberCount_append (a b : List (LC × LC)) (k : LC) :
    memberCount (a ++ b) k = memberCount a k + memberCount b k := by
  simp [memberCount, List.filter_append]

theorem memberCount_cons (x : LC × LC) (t : List (LC × LC)) (k : LC) :
    memberCount (x :: t) k = (if x.1 == k then 1 else 0) + memberCount t k := by
  by_cases h : x.1 == k <;> simp [memberCount, List.filter_cons, h] <;> omega

theorem memberCount_map_strip (fs : List (LC × LC)) (k : LC) :
    memberCount (List.map (fun e => (e.1, stripFences e.2)) fs) k = memberCount fs k := by
  induction fs with
  | nil => rfl
  | cons e t ih => simp [List.map_cons, memberCount_cons, ih]

theorem keysOf_cons (e : LC × LC) (t : List (LC × LC)) :
    keysOf (e :: t) = e.1 :: keysOf t := rfl

theorem memberCount_eq_of_nodup (fs : List (LC × LC))
    (hnd : List.Nodup (keysOf fs)) (k : LC) :
    memberCount fs k = if k ∈ keysOf fs then 1 else 0 := by
  induction fs with
  | nil => simp [memberCount, keysOf]
  | cons e t ih =>
    rw [keysOf_cons] at hnd
    have hni : e.1 ∉ keysOf t := (List.nodup_cons.mp hnd).1
    have hnd' : List.Nodup (keysOf t) := (List.nodup_cons.mp hnd).2
    rw [memberCount_cons, ih hnd', keysOf_cons]
    by_cases hk : e.1 = k
    · subst hk
      simp [hni]
    · have hne : ¬ (e.1 == k) = true := by simp [beq_iff_eq, hk]
      have hkm : (k ∈ e.1 :: keysOf t) ↔ k ∈ keysOf t := by
        simp [List.mem_cons]
        intro h
        exact absurd h.symm hk
      simp [hne, hkm]

theorem lookupKey_append_some (a b : List (LC × LC)) (k v : LC)
    (h : lookupKey a k = some v) : lookupKey (a ++ b) k = some v := by
  induction a with
  | nil => simp [lookupKey] at h
  | cons e t ih =>
    obtain ⟨k', v'⟩ := e
    rw [List.cons_append]
    simp only [lookupKey] at h ⊢
    by_cases hk : k' = k
    · rwa [if_pos hk] at h ⊢
    · rw [if_neg hk] at h ⊢
      exact ih h

theorem lookupKey_append_none (a b : List (LC × LC)) (k : LC)
    (h : lookupKey a k = none) : lookupKey (a ++ b) k = lookupKey b k := by
  induction a with
  | nil => simp
  | cons e t ih =>
    obtain ⟨k', v'⟩ := e
    rw [List.cons_append]
    simp only [lookupKey] at h ⊢
    by_cases hk : k' = k
    · rw [if_pos hk] at h
      exact absurd h (by simp)
    · rw [if_neg hk] at h ⊢
      exact ih h

theorem lookupKey_eq_none_iff (fs : List (LC × LC)) (k : LC) :
    lookupKey fs k = none ↔ k ∉ keysOf fs := by
  induction fs with
  | nil => simp [lookupKey, keysOf]
  | cons e t ih =>
    obtain ⟨k', v'⟩ := e
    rw [keysOf_cons]
    simp only [lookupKey]
    by_cases hk : k' = k
    · subst hk
      simp
    · rw [if_neg hk, ih]
      have hks : ¬ k = k' := fun h => hk h.symm
      simp [List.mem_cons, hks]

theorem lookupKey_mem (fs : List (LC × LC)) (k v : LC)
    (h : lookupKey fs k = some v) : (k, v) ∈ fs := by
  induction fs with
  | nil => simp [lookupKey] at h
  | cons e t ih =>
    obtain ⟨k', v'⟩ := e
    simp only [lookupKey] at h
    by_cases hk : k' = k
    · rw [if_pos hk] at h
      subst hk
      injection h with h
      subst h
      exact List.mem_cons_self _ _
    · rw [if_neg hk] at h
      exact List.mem_cons_of_mem _ (ih h)

theorem lookupKey_of_nodup_mem (fs : List (LC × LC))
    (hnd : List.Nodup (keysOf fs)) (k v : LC) (hm : (k, v) ∈ fs) :
    lookupKey fs k = some v := by
  induction fs with
  | nil => simp at hm
  | cons e t ih =>
    obtain ⟨k', v'⟩ := e
    rw [keysOf_cons] at hnd
    have hni : k' ∉ keysOf t := (List.nodup_cons.mp hnd).1
    have hnd' : List.Nodup (keysOf t) := (List.nodup_cons.mp hnd).2
    rcases List.mem_cons.mp hm with he | ht
    · injection he with h1 h2
      simp only [lookupKey]
      rw [if_pos h1.symm]
      rw [h2]
    · have hne : k' ≠ k := by
        intro hkk
        subst hkk
        exact hni (List.mem_map.mpr ⟨(k', v), ht, rfl⟩)
      simp only [lookupKey]
      rw [if_neg hne]
      exact ih hnd' ht

theorem keysOf_map_strip (fs : List (LC × LC)) :
    keysOf (List.map (fun e => (e.1, stripFences e.2)) fs) = keysOf fs := by
  induction fs with
  | nil => rfl
  | cons e t ih =>
    rw [List.map_cons, keysOf_cons, keysOf_cons, ih]

theorem keysOf_reverse (fs : List (LC × LC)) :
    keysOf (List.reverse fs) = List.reverse (keysOf fs) := by
  simp [keysOf, List.map_reverse]

theorem zipRead_of_mem (fs : List (LC × LC)) (hnd : List.Nodup (keysOf fs))
    (p c : LC) (hm : (p, c) ∈ fs) :
    zipRead (buildArchive fs) p = some (stripFences c) := by
  unfold zipRead buildArchive
  rw [List.reverse_append]
  have hmem : (p, stripFences c) ∈
      List.reverse (List.map (fun e => (e.1, stripFences e.2)) fs) :=
    List.mem_reverse.mpr (List.mem_map.mpr ⟨(p, c), hm, rfl⟩)
  have hndm : List.Nodup
      (keysOf (List.reverse (List.map (fun e => (e.1, stripFences e.2)) fs))) := by
    rw [keysOf_reverse, keysOf_map_strip]
    exact List.nodup_reverse.mpr hnd
  exact lookupKey_append_some _ _ _ _
    (lookupKey_of_nodup_mem _ hndm p (stripFences c) hmem)

/-- C8: round trip — every path of the FileSet is present in the archive,
and reading that member back (zipfile resolves a name to the last member
written under it) yields exactly the entry's fence-stripped content. -/
theorem claim8_round_trip (fs : List (LC × LC)) (hnd : List.Nodup (keysOf fs))
    (p c : LC) (hm : (p, c) ∈ fs) :
    zipRead (buildArchive fs) p = some (stripFences c) :=
  zipRead_of_mem fs hnd p c hm

theorem claim8_witness :
    zipRead (buildArchive [((['a'] : LC), " x ".data)]) ['a'] = some ['x'] :=
  (claim8_round_trip [((['a'] : LC), " x ".data)] (by decide) ['a'] " x ".data
    (by decide)).trans (by decide)

theorem memberCount_twInject_of_ne (fs : List (LC × LC)) (k : LC)
    (hk : k ≠ twPath) : memberCount (twInject fs) k = 0 := by
  unfold twInject
  split
  · rfl
  · have : ¬ (twPath == k) = true := by simp [beq_iff_eq]; exact fun h => hk h.symm
    simp [memberCount, List.filter_cons, this]

/-- C6: if the FileSet already has an entry at `"tailwind.config.js"`, the
default config is not injected and the archive member read back at that
path is the FileSet's own fence-stripped content (and that path occurs on
exactly one member); if the FileSet lacks that path, the archive carries
the default styling-configuration constant there. -/
theorem claim6_styling_config (fs : List (LC × LC))
    (hnd : List.Nodup (keysOf fs)) :
    (∀ c, lookupKey fs twPath = some c →
      twInject fs = [] ∧
      zipRead (buildArchive fs) twPath = some (stripFences c) ∧
      memberCount (buildArchive fs) twPath = 1) ∧
    (lookupKey fs twPath = none →
      zipRead (buildArchive fs) twPath = some twDefault ∧
      (twPath, twDefault) ∈ buildArchive fs) := by
  constructor
  · intro c hc
    have hmem : (twPath, c) ∈ fs := lookupKey_mem fs twPath c hc
    have hkeys : twPath ∈ keysOf fs := List.mem_map.mpr ⟨(twPath, c), hmem, rfl⟩
    have hinj : twInject fs = [] := by
      unfold twInject
      rw [if_pos ((keyMemB_iff fs twPath).mpr hkeys)]
    refine ⟨hinj, zipRead_of_mem fs hnd twPath c hmem, ?_⟩
    show memberCount (((pkgPath, pkgManifest) :: twInject fs) ++
      List.map (fun e => (e.1, stripFences e.2)) fs) twPath = 1
    rw [memberCount_append, memberCount_cons, hinj, memberCount_map_strip,
      memberCount_eq_of_nodup fs hnd, if_pos hkeys]
    have : ¬ (pkgPath == twPath) = true := by decide
    simp [this, memberCount]
  · intro hc
    have hkeys : twPath ∉ keysOf fs := (lookupKey_eq_none_iff fs twPath).mp hc
    have hinj : twInject fs = [(twPath, twDefault)] := by
      unfold twInject
      rw [if_neg]
      simp [keyMemB_iff, hkeys]
    constructor
    · show lookupKey (List.reverse (((pkgPath, pkgManifest) :: twInject fs) ++
        List.map (fun e => (e.1, stripFences e.2)) fs)) twPath = some twDefault
      rw [List.reverse_append]
      have hnone : lookupKey
          (List.reverse (List.map (fun e => (e.1, stripFences e.2)) fs)) twPath = none := by
        rw [lookupKey_eq_none_iff, keysOf_reverse, keysOf_map_strip]
        simpa using hkeys
      rw [lookupKey_append_none _ _ _ hnone, hinj]
      decide
    · show (twPath, twDefault) ∈ ((pkgPath, pkgManifest) :: twInject fs) ++
        List.map (fun e => (e.1, stripFences e.2)) fs
      refine List.mem_append_left _ ?_
      rw [hinj]
      exact List.mem_cons_of_mem _ (List.mem_cons_self _ _)

theorem claim6_witness :
    zipRead (buildArchive ([] : List (LC × LC))) twPath = some twDefault :=
  ((claim6_styling_config [] (by decide)).2 rfl).1

/-- C1 counterexample: for the FileSet `{"package.json" ↦ "x"}` the archive
contains **two** members at `"package.json"` (the fixed manifest and the
FileSet's entry — `zipf.writestr` appends, it does not overwrite), so the
path is duplicated, contrary to the claimed "exactly one member". -/
theorem claim1_counterexample :
    memberCount (buildArchive [(pkgPath, ['x'])]) pkgPath = 2 := by
  decide

/-- C1 amended: every FileSet path other than `"package.json"` appears
exactly once in the archive; `"package.json"` itself appears once when the
FileSet lacks it and **twice** when the FileSet contains it (first the
fixed manifest member, then the FileSet's fence-stripped entry — the two
coexist; the manifest does not replace the FileSet's entry). -/
theorem claim1_amended_member_multiplicity (fs : List (LC × LC))
    (hnd : List.Nodup (keysOf fs)) :
    memberCount (buildArchive fs) pkgPath =
      (if keyMemB fs pkgPath then 2 else 1) ∧
    (∀ p ∈ keysOf fs, p ≠ pkgPath → memberCount (buildArchive fs) p = 1) := by
  have harch : ∀ k, memberCount (buildArchive fs) k =
      memberCount ((pkgPath, pkgManifest) :: twInject fs) k + memberCount fs k := by
    intro k
    show memberCount (((pkgPath, pkgManifest) :: twInject fs) ++
      List.map (fun e => (e.1, stripFences e.2)) fs) k = _
    rw [memberCount_append, memberCount_map_strip]
  constructor
  · rw [harch, memberCount_cons,
      memberCount_twInject_of_ne fs pkgPath (by decide),
      memberCount_eq_of_nodup fs hnd]
    by_cases hm : pkgPath ∈ keysOf fs
    · rw [if_pos hm, if_pos ((keyMemB_iff fs pkgPath).mpr hm)]
      decide
    · have : keyMemB fs pkgPath = false := by
        rcases Bool.eq_false_or_eq_true (keyMemB fs pkgPath) with h | h
        · exact absurd ((keyMemB_iff fs pkgPath).mp h) hm
        · exact h
      rw [if_neg hm, this]
      decide
  · intro p hp hne
    have hpk : ¬ (pkgPath == p) = true := by
      simp [beq_iff_eq]
      exact fun h => hne h.symm
    rw [harch, memberCount_cons, memberCount_eq_of_nodup fs hnd, if_pos hp]
    simp only [hpk, if_false]
    by_cases htw : p = twPath
    · subst htw
      have hinj : twInject fs = [] := by
        unfold twInject
        rw [if_pos ((keyMemB_iff fs twPath).mpr hp)]
      rw [hinj]
      rfl
    · rw [memberCount_twInject_of_ne fs p htw]
      decide

theorem claim1_witness :
    memberCount (buildArchive [((['a'] : LC), (['b'] : LC))]) ['a'] = 1 :=
  (claim1_amended_member_multiplicity [((['a'] : LC), (['b'] : LC))] (by decide)).2
    ['a'] (by decide) (by decide)

theorem flushS_eq_applyEvents (cf : Option LC) (cc : List LC)
    (fs : List (LC × LC)) : flushS cf cc fs = applyEvents fs (flushEv cf cc) := by
  cases cf with
  | none => rfl
  | some p =>
    by_cases hp : p = []
    · simp [flushS, flushEv, hp, applyEvents]
    · simp [flushS, flushEv, hp, applyEvents]

theorem applyEvents_append (d evs es : List (LC × LC)) :
    applyEvents d (evs ++ es) = applyEvents (applyEvents d evs) es := by
  simp [applyEvents, List.foldl_append]

theorem parse_sim (lines : List LC) :
    ∀ (cf : Option LC) (cc : List LC) (evs fs : List (LC × LC)),
      fs = applyEvents [] evs →
      List.foldl parseLine (cf, cc, fs) lines =
        ((List.foldl parseLineEv (cf, cc, evs) lines).1,
         (List.foldl parseLineEv (cf, cc, evs) lines).2.1,
         applyEvents [] (List.foldl parseLineEv (cf, cc, evs) lines).2.2) := by
  induction lines with
  | nil =>
    intro cf cc evs fs hfs
    simpa using hfs
  | cons l ls ih =>
    intro cf cc evs fs hfs
    rw [List.foldl_cons, List.foldl_cons]
    by_cases hm : List.isPrefixOf markerL l
    · have hstep : parseLine (cf, cc, fs) l =
          (some (pyStrip (List.drop 8 l)), [], flushS cf cc fs) := by
        simp [parseLine, hm]
      have hstepE : parseLineEv (cf, cc, evs) l =
          (some (pyStrip (List.drop 8 l)), [], evs ++ flushEv cf cc) := by
        simp [parseLineEv, hm]
      rw [hstep, hstepE]
      refine ih _ _ _ _ ?_
      rw [hfs, applyEvents_append, flushS_eq_applyEvents]
    · by_cases ht : pyTruthy cf
      · have hstep : parseLine (cf, cc, fs) l = (cf, cc ++ [l], fs) := by
          simp [parseLine, hm, ht]
        have hstepE : parseLineEv (cf, cc, evs) l = (cf, cc ++ [l], evs) := by
          simp [parseLineEv, hm, ht]
        rw [hstep, hstepE]
        exact ih _ _ _ _ hfs
      · have hstep : parseLine (cf, cc, fs) l = (cf, cc, fs) := by
          simp [parseLine, hm, ht]
        have hstepE : parseLineEv (cf, cc, evs) l = (cf, cc, evs) := by
          simp [parseLineEv, hm, ht]
        rw [hstep, hstepE]
        exact ih _ _ _ _ hfs

theorem parseFileBlocks_eq_applyEvents (text : LC) :
    parseFileBlocks text = applyEvents [] (parseEvents text) := by
  have h := parse_sim (splitOnNl text) none [] [] [] rfl
  rw [parseFileBlocks_eq, h]
  show flushS _ _ _ = applyEvents [] (let st := List.foldl parseLineEv (none, [], []) (splitOnNl text); st.2.2 ++ flushEv st.1 st.2.1)
  rw [flushS_eq_applyEvents]
  rw [show (let st := List.foldl parseLineEv (none, [], []) (splitOnNl text); st.2.2 ++ flushEv st.1 st.2.1) = (List.foldl parseLineEv (none, [], []) (splitOnNl text)).2.2 ++ flushEv (List.foldl parseLineEv (none, [], []) (splitOnNl text)).1 (List.foldl parseLineEv (none, [], []) (splitOnNl text)).2.1 from rfl]
  rw [applyEvents_append]

theorem keysOf_dictInsert_mem (d : List (LC × LC)) (k v : LC)
    (hk : k ∈ keysOf d) : keysOf (dictInsert d k v) = keysOf d := by
  induction d with
  | nil => simp [keysOf] at hk
  | cons e t ih =>
    obtain ⟨k', v'⟩ := e
    simp only [dictInsert]
    by_cases hkk : k' = k
    · rw [if_pos hkk, keysOf_cons, keysOf_cons]
    · rw [if_neg hkk, keysOf_cons, keysOf_cons, ih]
      rw [keysOf_cons] at hk
      rcases List.mem_cons.mp hk with h | h
      · exact absurd h.symm hkk
      · exact h

theorem keysOf_dictInsert_not_mem (d : List (LC × LC)) (k v : LC)
    (hk : k ∉ keysOf d) : keysOf (dictInsert d k v) = keysOf d ++ [k] := by
  induction d with
  | nil => rfl
  | cons e t ih =>
    obtain ⟨k', v'⟩ := e
    rw [keysOf_cons] at hk
    have h1 : k' ≠ k := fun h => hk (h ▸ List.mem_cons_self _ _)
    have h2 : k ∉ keysOf t := fun h => hk (List.mem_cons_of_mem _ h)
    simp only [dictInsert]
    rw [if_neg h1, keysOf_cons, keysOf_cons, ih h2, List.cons_append]

theorem dedupFirst_cons (x : LC) (xs : List LC) :
    dedupFirst (x :: xs) = x :: dedupFirst (List.filter (fun y => !(y == x)) xs) := by
  simp [dedupFirst]

theorem notmem_append_single (x k : LC) (ks : List LC) :
    decide (x ∉ ks ++ [k]) = (!(x == k) && decide (x ∉ ks)) := by
  by_cases h1 : x = k <;> by_cases h2 : x ∈ ks <;>
    simp [h1, h2, List.mem_append]

theorem keysOf_applyEvents (evs : List (LC × LC)) :
    ∀ d : List (LC × LC),
      keysOf (applyEvents d evs) =
        keysOf d ++ dedupFirst (List.filter (fun x => decide (x ∉ keysOf d))
          (List.map Prod.fst evs)) := by
  induction evs with
  | nil =>
    intro d
    simp [applyEvents, dedupFirst]
  | cons e evs ih =>
    intro d
    obtain ⟨k, v⟩ := e
    have hstep : applyEvents d ((k, v) :: evs) = applyEvents (dictInsert d k v) evs := by
      simp [applyEvents]
    rw [hstep, ih (dictInsert d k v), List.map_cons]
    by_cases hk : k ∈ keysOf d
    · rw [keysOf_dictInsert_mem d k v hk]
      have hpk : decide (k ∉ keysOf d) = false := by simp [hk]
      rw [List.filter_cons]
      rw [hpk]
      simp only [Bool.false_eq_true, if_false]
    · rw [keysOf_dictInsert_not_mem d k v hk]
      have hpk : decide (k ∉ keysOf d) = true := by simp [hk]
      rw [List.filter_cons, hpk]
      simp only [if_true]
      rw [dedupFirst_cons, List.filter_filter]
      have hcong : List.filter (fun x => decide (x ∉ keysOf d ++ [k]))
          (List.map Prod.fst evs) =
          List.filter (fun y => !(y == k) && decide (y ∉ keysOf d))
          (List.map Prod.fst evs) :=
        List.filter_congr (fun x _ => notmem_append_single x k (keysOf d))
      rw [hcong, List.append_assoc, List.singleton_append]

theorem keysOf_parseFileBlocks (text : LC) :
    keysOf (parseFileBlocks text) =
      dedupFirst (List.map Prod.fst (parseEvents text)) := by
  rw [parseFileBlocks_eq_applyEvents, keysOf_applyEvents (parseEvents text) []]
  have : List.filter (fun x => decide (x ∉ keysOf ([] : List (LC × LC))))
      (List.map Prod.fst (parseEvents text)) =
      List.map Prod.fst (parseEvents text) := by
    have h1 : List.filter (fun x => decide (x ∉ keysOf ([] : List (LC × LC))))
        (List.map Prod.fst (parseEvents text)) =
        List.filter (fun _ => true) (List.map Prod.fst (parseEvents text)) :=
      List.filter_congr (fun x _ => by simp [keysOf])
    rw [h1, List.filter_true]
  rw [this]
  simp [keysOf]

/-- C9: the archive's member paths are, in order: the dependency manifest
`"package.json"` first, then `"tailwind.config.js"` exactly when the
FileSet lacks that path, then the FileSet's paths — each at the position of
its first finalization (flush) during parsing, later finalizations of the
same path updating content but not order (Python dict semantics). -/
theorem claim9_member_order (text : LC) :
    List.map Prod.fst (create_zip_file text) =
      pkgPath :: (if keyMemB (parseFileBlocks text) twPath then [] else [twPath]) ++
        dedupFirst (List.map Prod.fst (parseEvents text)) := by
  show List.map Prod.fst (((pkgPath, pkgManifest) :: twInject (parseFileBlocks text)) ++
    List.map (fun e => (e.1, stripFences e.2)) (parseFileBlocks text)) = _
  rw [List.map_append, List.map_cons]
  have h1 : List.map Prod.fst (List.map (fun e => (e.1, stripFences e.2))
      (parseFileBlocks text)) = keysOf (parseFileBlocks text) := keysOf_map_strip _
  rw [h1, keysOf_parseFileBlocks]
  have h2 : List.map Prod.fst (twInject (parseFileBlocks text)) =
      (if keyMemB (parseFileBlocks text) twPath then [] else [twPath]) := by
    unfold twInject
    by_cases hb : keyMemB (parseFileBlocks text) twPath
    · rw [if_pos hb, if_pos hb]
      rfl
    · rw [if_neg hb, if_neg hb]
      rfl
  rw [h2]
